import Mathlib

set_option maxHeartbeats 1000000

/-!
Verification development for the audio-results-site repository
(`src/App.jsx`).  The JavaScript code is shallowly embedded: JS runtime
values are the inductive `JSVal`, fallible JS code (code that can throw a
`TypeError`) is modelled with `Option` (`none` = the exception escapes),
strings are Lean `String`/`List Char`, and JS numbers appearing here
(indices, page counts) are `Int`/`Nat` with `Rat` for the one fractional
division (`Math.ceil(len / pageSize)`).
-/

namespace AudioResults

/-- JavaScript runtime values, as produced by `JSON.parse` plus `undefined`. -/
inductive JSVal where
  | undefined
  | null
  | bool (b : Bool)
  | num (n : Int)
  | str (s : String)
  | arr (elems : List JSVal)
  | obj (fields : List (String × JSVal))

/-- Property lookup in an object's field list (first binding wins; the list
is the map representation of the object). -/
def lookupField : List (String × JSVal) → String → JSVal
  | [], _ => .undefined
  | (k, v) :: rest, key => if k = key then v else lookupField rest key

/-- `v?.key` — optional-chained property access: `undefined` on any
non-object base (including `null`/`undefined`), the bound value otherwise. -/
def getField : JSVal → String → JSVal
  | .obj fs, key => lookupField fs key
  | _, _ => .undefined

/-- JS truthiness. -/
def truthy : JSVal → Bool
  | .undefined => false
  | .null => false
  | .bool b => b
  | .num n => n != 0
  | .str s => s != ""
  | .arr _ => true
  | .obj _ => true

/-- Is the value `null` or `undefined` (the `??` test)? -/
def isNullish : JSVal → Bool
  | .undefined => true
  | .null => true
  | _ => false

/-- `a ?? b`. -/
def nullishOr (a b : JSVal) : JSVal := if isNullish a then b else a

/-- `a || b`. -/
def jsOr (a b : JSVal) : JSVal := if truthy a then a else b

/-- `v?.[i]` — indexed access: array element, single-character string for a
string base, string-keyed lookup on an object, `undefined` otherwise. -/
def getIdx (v : JSVal) (i : Nat) : JSVal :=
  match v with
  | .arr l => l.getD i .undefined
  | .str s => if h : i < s.data.length then .str (String.mk [s.data.get ⟨i, h⟩]) else .undefined
  | .obj fs => lookupField fs (toString i)
  | _ => .undefined

/-- The canonical sample record built by `normalizeOne` (`App.jsx:116-133`).
Field values keep their JS types (`JSVal`), except `correct`, which the code
coerces with `!!`. -/
structure SampleJS where
  index : JSVal
  audioPaths : List JSVal
  prompt : JSVal
  prediction : JSVal
  label : JSVal
  correct : Bool
  length : JSVal

/-- `x.map((a) => a?.audio_filepath).filter(Boolean)` — JS `.map` exists only
on arrays, so a non-array receiver throws (`none`). -/
def audiosMapAndFilter : JSVal → Option (List JSVal)
  | .arr l => some ((l.map (fun a => getField a "audio_filepath")).filter truthy)
  | _ => none

/-- `normalizeOne(r, i)` from `App.jsx:116-133`.  Returns `none` exactly when
the JS code throws, which happens iff `r?.audios || []` is a truthy
non-array (then `.map` is not a function). -/
def normalizeOne (r : JSVal) (i : Nat) : Option SampleJS :=
  match audiosMapAndFilter (jsOr (getField r "audios") (.arr [])) with
  | none => none
  | some paths =>
    some {
      index := nullishOr (getField r "index") (.num i)
      audioPaths := paths
      prompt := nullishOr (getField (getIdx (getField r "messages") 0) "content") (.str "")
      prediction := nullishOr (getField r "prediction") (nullishOr (getField r "response") (.str ""))
      label := nullishOr (getField r "label") (nullishOr (getField r "target") (.str ""))
      correct := truthy (getField r "correct")
      length := nullishOr (getField r "length") .null }

/-- `results.map((r, i) => normalizeOne(r, i))`, threading the position;
the first throwing element aborts the whole map. -/
def normList : List JSVal → Nat → Option (List SampleJS)
  | [], _ => some []
  | r :: rest, i =>
    match normalizeOne r i with
    | none => none
    | some s => (normList rest (i + 1)).map (fun ss => s :: ss)

/-- The metrics object built in shape 1 of `normalizeResults`
(`App.jsx:97-103`). -/
def metricOf (p : JSVal) : JSVal :=
  .obj [("metric", nullishOr (getField p "metric") (.str "")),
        ("accuracy_by_sample", nullishOr (getField p "accuracy_by_sample") .null),
        ("avg_accuracy_by_category", nullishOr (getField p "avg_accuracy_by_category") .null),
        ("categories_accuracy", nullishOr (getField p "categories_accuracy") .null),
        ("config", nullishOr (getField p "config") .null)]

/-- `normalizeResults(parsed)` from `App.jsx:92-114`: object-with-`results`
shape, top-level array shape, or the degenerate fallback. -/
def normalizeResults (parsed : JSVal) : Option (List SampleJS × JSVal) :=
  match parsed with
  | .obj fs =>
    let results := match lookupField fs "results" with
      | .arr l => l
      | _ => []
    (normList results 0).map (fun ss => (ss, metricOf (.obj fs)))
  | .arr l => (normList l 0).map (fun ss => (ss, .obj []))
  | _ => some ([], .obj [])

/-- Neither an object nor an array: the degenerate dispatch case
(`null`, `undefined`, booleans, numbers, bare strings). -/
def scalarLike : JSVal → Bool
  | .obj _ => false
  | .arr _ => false
  | _ => true

/-- A well-formed `audios` entry, per the RawResult shape of the spec. -/
structure RawAudio where
  audio_filepath : Option String := none
deriving DecidableEq

/-- A well-formed `messages` entry. -/
structure RawMessage where
  content : Option String := none
deriving DecidableEq

/-- A well-formed RawResult record (every field optional), as described by
the spec's data model and external-interface sections. -/
structure RawResult where
  index : Option Int := none
  audios : Option (List RawAudio) := none
  messages : Option (List RawMessage) := none
  prediction : Option String := none
  response : Option String := none
  label : Option String := none
  target : Option String := none
  correct : Option Bool := none
  length : Option Int := none
deriving DecidableEq

/-- Encode an optional field value (`none` = the JSON key carries
`undefined`, observationally identical to an absent key for this code). -/
def optJS (f : α → JSVal) : Option α → JSVal
  | none => .undefined
  | some a => f a

def toJSAudio (a : RawAudio) : JSVal :=
  .obj [("audio_filepath", optJS .str a.audio_filepath)]

def toJSMessage (m : RawMessage) : JSVal :=
  .obj [("content", optJS .str m.content)]

/-- A well-formed RawResult as a JS value. -/
def toJS (r : RawResult) : JSVal :=
  .obj [("index", optJS .num r.index),
        ("audios", optJS (fun l => .arr (l.map toJSAudio)) r.audios),
        ("messages", optJS (fun l => .arr (l.map toJSMessage)) r.messages),
        ("prediction", optJS .str r.prediction),
        ("response", optJS .str r.response),
        ("label", optJS .str r.label),
        ("target", optJS .str r.target),
        ("correct", optJS .bool r.correct),
        ("length", optJS .num r.length)]

/-- What `normalizeOne (toJS r) i` computes, written directly over the typed
record. -/
def promptOf (r : RawResult) : String :=
  match r.messages with
  | some (m :: _) => m.content.getD ""
  | _ => ""

def sampleToJS (r : RawResult) (i : Nat) : SampleJS :=
  { index := .num (r.index.getD (Int.ofNat i))
    audioPaths := ((r.audios.getD []).map (fun x => optJS .str x.audio_filepath)).filter truthy
    prompt := .str (promptOf r)
    prediction := .str (r.prediction.getD (r.response.getD ""))
    label := .str (r.label.getD (r.target.getD ""))
    correct := r.correct.getD false
    length := optJS .num r.length |> fun v => nullishOr v .null }

/-- Typed image of `normList` over well-formed records. -/
def sampleList : List RawResult → Nat → List SampleJS
  | [], _ => []
  | r :: rest, i => sampleToJS r i :: sampleList rest (i + 1)

/- ------------------------------------------------------------------ -/
/- Text sanitizer (`stripThinking`, `App.jsx:136-145`)                 -/
/- ------------------------------------------------------------------ -/

/-- JS whitespace for `trim` (the characters relevant here). -/
def wsChar (c : Char) : Bool :=
  c = ' ' || c = '\t' || c = '\n' || c = '\r' ||
  c = Char.ofNat 11 || c = Char.ofNat 12 || c = Char.ofNat 0xa0

def trimL (l : List Char) : List Char := l.dropWhile wsChar

/-- `String.prototype.trim`: drop leading then trailing whitespace. -/
def jsTrim (l : List Char) : List Char :=
  (trimL (trimL l).reverse).reverse

/-- Does `pat` start the list? -/
def startsWithL : List Char → List Char → Bool
  | [], _ => true
  | _ :: _, [] => false
  | p :: ps, c :: cs => p == c && startsWithL ps cs

/-- Split at the first occurrence of `pat`: `some (before, after)` with the
input equal to `before ++ pat ++ after` and `before` minimal; `none` when
`pat` does not occur (models `indexOf`/`slice`). -/
def findSplit (pat : List Char) : List Char → Option (List Char × List Char)
  | [] => if startsWithL pat [] then some ([], []) else none
  | c :: cs =>
    if startsWithL pat (c :: cs) then some ([], (c :: cs).drop pat.length)
    else
      match findSplit pat cs with
      | none => none
      | some (b, a) => some (c :: b, a)

/-- Does `pat` occur in `l` (JS `includes`)? -/
def hasSub (pat l : List Char) : Bool := (findSplit pat l).isSome

def openTag : List Char := "<think>".data
def closeTag : List Char := "</think>".data

/-- `</think>` step: keep only what follows the first closing marker
(`s.indexOf("</think>")` then `slice`); unchanged when absent. -/
def afterClose (l : List Char) : List Char :=
  match findSplit closeTag l with
  | none => l
  | some (_, a) => a

/-- One global pass of `out.replace(/<think>[\s\S]*?<\/think>/g, "")`:
repeatedly take the leftmost `<think>`, extend lazily to the first
`</think>` after it, delete, and continue after the deleted span (the JS
engine does not rescan across the splice).  `fuel` only bounds the
recursion; each step removes at least 15 characters, so `fuel = length`
never runs out. -/
def removeSpansGo : Nat → List Char → List Char
  | 0, cs => cs
  | fuel + 1, cs =>
    match findSplit openTag cs with
    | none => cs
    | some (b, rest) =>
      match findSplit closeTag rest with
      | none => cs
      | some (_, aft) => b ++ removeSpansGo fuel aft

def removeSpans (cs : List Char) : List Char := removeSpansGo cs.length cs

/-- `stripThinking` on an actual string (`App.jsx:136-145`).  The code's
`!s` early return only affects `""`, for which the pipeline below also
yields `""`. -/
def stripThinking (s : String) : String :=
  String.mk (jsTrim (removeSpans (afterClose s.data)))

/-- `stripThinking` on an arbitrary JS value: non-strings map to `""`. -/
def stripThinkingVal : JSVal → String
  | .str s => stripThinking s
  | _ => ""

/- ------------------------------------------------------------------ -/
/- Canonical samples for the view layer (filter, pagination, CSV)      -/
/- ------------------------------------------------------------------ -/

/-- A canonical sample as the data model describes it (string fields), the
shape over which the filter, pagination and CSV claims quantify. -/
structure CSample where
  index : Int
  audioPaths : List String
  prompt : String
  prediction : String
  label : String
  correct : Bool
deriving DecidableEq

/-- `toLowerCase` (character-wise). -/
def lowerL (l : List Char) : List Char := l.map Char.toLower

/-- The `filtered` memo (`App.jsx:163-175`): only-wrong filter, then, when
the trimmed query is non-empty, case-insensitive substring match against the
raw prompt and the sanitized prediction and label. -/
def filteredFn (samples : List CSample) (ow : Bool) (q : String) : List CSample :=
  let l1 := if ow then samples.filter (fun s => !s.correct) else samples
  let qt := jsTrim q.data
  if qt.isEmpty then l1
  else
    l1.filter (fun s =>
      hasSub (lowerL qt) (lowerL s.prompt.data)
      || hasSub (lowerL qt) (lowerL (stripThinking s.prediction).data)
      || hasSub (lowerL qt) (lowerL (stripThinking s.label).data))

/-- `Math.max(1, Math.ceil(filtered.length / pageSize))` (`App.jsx:177`),
with the float division modelled exactly over `ℚ`. -/
def totalPagesFn (len k : Nat) : Nat :=
  max 1 (Int.toNat ⌈(len : ℚ) / (k : ℚ)⌉)

def pageStartFn (p k : Nat) : Nat := (p - 1) * k

def pageEndFn (len p k : Nat) : Nat := min len (pageStartFn p k + k)

/-- `Array.prototype.slice(s, e)` for in-range arguments. -/
def jsSliceL (l : List α) (s e : Nat) : List α := (l.take e).drop s

/-- `filtered.slice(pageStart, pageEnd)` (`App.jsx:178-180`). -/
def pageRowsFn (l : List CSample) (p k : Nat) : List CSample :=
  jsSliceL l (pageStartFn p k) (pageEndFn l.length p k)

/- ------------------------------------------------------------------ -/
/- CSV exporter (`exportWrongCSV`, `App.jsx:182-209`)                  -/
/- ------------------------------------------------------------------ -/

/-- `replaceAll` with a single-character pattern and a replacement carrying
no dollar patterns. -/
def replaceAllChar (c : Char) (rep : List Char) : List Char → List Char
  | [] => []
  | x :: xs => (if x = c then rep else [x]) ++ replaceAllChar c rep xs

/-- `jsonSafe` (`App.jsx:206-209`): each newline becomes the two characters
`\` `n`. -/
def jsonSafe (s : String) : String :=
  String.mk (replaceAllChar '\n' ['\\', 'n'] s.data)

/-- One exported field: `"${String(x).replaceAll('"', '"')}"` — note the
code replaces a double quote WITH a double quote, so the `replaceAll` is a
no-op and the value is wrapped in quotes verbatim. -/
def csvField (x : String) : String :=
  "\"" ++ String.mk (replaceAllChar '"' ['"'] x.data) ++ "\""

/-- One CSV row of `exportWrongCSV` (`App.jsx:185-195`). -/
def csvRow (s : CSample) : String :=
  String.intercalate ","
    (([toString s.index,
       String.mk (replaceAllChar '"' ['"'] (s.audioPaths.headD "").data),
       jsonSafe (stripThinking s.prompt),
       jsonSafe (stripThinking s.prediction),
       jsonSafe (stripThinking s.label)]).map csvField)

/-- The CSV payload `exportWrongCSV` serializes (`App.jsx:182-196`); the
blob/download plumbing is platform I/O and out of scope. -/
def exportWrongCSV (samples : List CSample) : String :=
  let wrong := samples.filter (fun s => !s.correct)
  String.intercalate "\n" ("index,audio,prompt,prediction,label" :: wrong.map csvRow)

/- ------------------------------------------------------------------ -/
/- Path resolver (`audioUrl`/`joinUrl`, `App.jsx:147-161`)             -/
/- ------------------------------------------------------------------ -/

inductive UrlMode where
  | basename
  | replace
deriving DecidableEq

structure UrlCfg where
  baseUrl : String
  replaceFrom : String
  replaceTo : String

def dollarC : Char := '$'
def ampC : Char := '&'
def graveC : Char := Char.ofNat 96
def aposC : Char := Char.ofNat 39

/-- ECMAScript GetSubstitution for a string pattern (no capture groups):
`$$` is a literal dollar, `$&` the matched text, a dollar followed by the
grave accent the text before the match, a dollar followed by the apostrophe
the text after it; anything else after `$` stays literal. -/
def getSubst (m bef aft : List Char) : List Char → List Char
  | [] => []
  | [c] => [c]
  | c :: d :: rest2 =>
    if c = dollarC then
      if d = dollarC then dollarC :: getSubst m bef aft rest2
      else if d = ampC then m ++ getSubst m bef aft rest2
      else if d = graveC then bef ++ getSubst m bef aft rest2
      else if d = aposC then aft ++ getSubst m bef aft rest2
      else c :: getSubst m bef aft (d :: rest2)
    else c :: getSubst m bef aft (d :: rest2)

/-- `String.prototype.replace` with a string pattern: replace the first
occurrence, processing dollar substitution patterns in the replacement. -/
def jsReplaceOnce (s pat rep : String) : String :=
  match findSplit pat.data s.data with
  | none => s
  | some (b, a) => String.mk (b ++ getSubst pat.data b a rep.data ++ a)

/-- The literal replacement the spec describes: splice the `rep` string in
verbatim at the first occurrence of `pat` (comparison definition for the
refinement claim, following the spec's words). -/
def replaceLiteralSpec (s pat rep : String) : String :=
  match findSplit pat.data s.data with
  | none => s
  | some (b, a) => String.mk (b ++ rep.data ++ a)

/-- `joinUrl` (`App.jsx:157-161`). -/
def joinUrl (base p : String) : String :=
  if base = "" then p
  else if base.data.getLast? = some '/' then base ++ p
  else base ++ "/" ++ p

/-- `p.split("/")` — split on the separator, never empty. -/
def splitSlash : List Char → List (List Char)
  | [] => [[]]
  | c :: cs =>
    if c = '/' then [] :: splitSlash cs
    else
      match splitSlash cs with
      | [] => [[c]]
      | h :: t => (c :: h) :: t

/-- `p.split("/").pop()` on a non-empty split result. -/
def lastSeg (p : String) : List Char :=
  ((splitSlash p.data).getLast?).getD []

/-- The substring of a path after its last separator (the spec's wording
for basename mode), written directly. -/
def afterLastSlash (p : String) : List Char :=
  (p.data.reverse.takeWhile (fun c => c != '/')).reverse

/-- `audioUrl` (`App.jsx:147-155`). -/
def audioUrl (mode : UrlMode) (cfg : UrlCfg) (p : String) : String :=
  if p = "" then ""
  else
    match mode with
    | .basename => joinUrl cfg.baseUrl (String.mk (lastSeg p))
    | .replace => jsReplaceOnce p cfg.replaceFrom cfg.replaceTo

/-- Sample constructor used by the concrete pagination example. -/
def mkC (n : Nat) : CSample :=
  { index := Int.ofNat n, audioPaths := [], prompt := "", prediction := "",
    label := "", correct := true }

/- ------------------------------------------------------------------ -/
/- Machinery lemmas: substring search and trimming                     -/
/- ------------------------------------------------------------------ -/

theorem startsWithL_eq : ∀ (pat l : List Char), startsWithL pat l = true →
    l = pat ++ l.drop pat.length := by
  intro pat
  induction pat with
  | nil => intro l _; simp
  | cons p ps ih =>
    intro l h
    cases l with
    | nil => simp [startsWithL] at h
    | cons c cs =>
      simp only [startsWithL, Bool.and_eq_true, beq_iff_eq] at h
      obtain ⟨rfl, h2⟩ := h
      simpa using ih cs h2

theorem findSplit_eq : ∀ (l b a : List Char), findSplit pat l = some (b, a) →
    l = b ++ pat ++ a := by
  intro l
  induction l with
  | nil =>
    intro b a h
    cases pat with
    | nil =>
      simp [findSplit, startsWithL] at h
      obtain ⟨rfl, rfl⟩ := h
      rfl
    | cons p ps => simp [findSplit, startsWithL] at h
  | cons c cs ih =>
    intro b a h
    by_cases hs : startsWithL pat (c :: cs) = true
    · simp only [findSplit] at h
      rw [if_pos hs] at h
      injection h with h2
      injection h2 with hb ha
      subst hb
      subst ha
      simpa using startsWithL_eq pat (c :: cs) hs
    · simp only [findSplit] at h
      rw [if_neg hs] at h
      cases hfs : findSplit pat cs with
      | none => rw [hfs] at h; exact Option.noConfusion h
      | some ba =>
        obtain ⟨b2, a2⟩ := ba
        rw [hfs] at h
        injection h with h2
        injection h2 with hb ha
        subst hb
        subst ha
        have h3 := ih b2 a2 hfs
        simp [h3]

theorem hasSub_append (pat x a : List Char) (h : hasSub pat a = true) :
    hasSub pat (x ++ a) = true := by
  induction x with
  | nil => simpa using h
  | cons c cs ih =>
    simp only [List.cons_append, hasSub, findSplit, List.append_eq]
    by_cases hs : startsWithL pat (c :: (cs ++ a)) = true
    · rw [if_pos hs]; rfl
    · rw [if_neg hs]
      simp only [hasSub] at ih
      cases hfs : findSplit pat (cs ++ a) with
      | none => rw [hfs] at ih; simp at ih
      | some ba =>
        obtain ⟨b2, a2⟩ := ba
        rfl

theorem afterClose_no_close {l : List Char} (h : hasSub closeTag l = false) :
    afterClose l = l := by
  unfold afterClose
  cases hfs : findSplit closeTag l with
  | none => rfl
  | some ba => simp only [hasSub] at h; rw [hfs] at h; simp at h

theorem removeSpansGo_no_close {cs : List Char} (h : hasSub closeTag cs = false) :
    ∀ fuel, removeSpansGo fuel cs = cs := by
  intro fuel
  cases fuel with
  | zero => rfl
  | succ n =>
    cases hfo : findSplit openTag cs with
    | none => simp only [removeSpansGo, hfo]
    | some br =>
      obtain ⟨b, rest⟩ := br
      cases hfc : findSplit closeTag rest with
      | none => simp only [removeSpansGo, hfo, hfc]
      | some ma =>
        exfalso
        have hcs : cs = b ++ openTag ++ rest := findSplit_eq _ _ _ hfo
        have h1 : hasSub closeTag rest = true := by simp only [hasSub]; rw [hfc]; rfl
        have h2 : hasSub closeTag (openTag ++ rest) = true := hasSub_append _ _ _ h1
        have h3 : hasSub closeTag (b ++ (openTag ++ rest)) = true := hasSub_append _ _ _ h2
        rw [← List.append_assoc, ← hcs] at h3
        rw [h3] at h
        exact Bool.noConfusion h

theorem removeSpans_no_close {cs : List Char} (h : hasSub closeTag cs = false) :
    removeSpans cs = cs :=
  removeSpansGo_no_close h _

theorem dropWhile_dropWhile_same (p : α → Bool) (l : List α) :
    (l.dropWhile p).dropWhile p = l.dropWhile p := by
  induction l with
  | nil => rfl
  | cons c cs ih =>
    by_cases h : p c = true
    · simp [List.dropWhile_cons, h, ih]
    · simp [List.dropWhile_cons, h]

theorem head?_dropWhile_false (p : α → Bool) (l : List α) {x : α}
    (h : (l.dropWhile p).head? = some x) : p x = false := by
  have h2 := List.head?_dropWhile_not p l
  rw [h] at h2
  exact h2

theorem getLast?_dropWhile (p : α → Bool) (l : List α) (h : l.dropWhile p ≠ []) :
    (l.dropWhile p).getLast? = l.getLast? := by
  induction l with
  | nil => exact absurd rfl h
  | cons c cs ih =>
    by_cases hc : p c = true
    · rw [List.dropWhile_cons, if_pos hc] at h ⊢
      rw [ih h]
      cases cs with
      | nil => exact absurd rfl h
      | cons d ds => rw [List.getLast?_cons_cons]
    · rw [List.dropWhile_cons, if_neg hc]

theorem trimL_eq_self {l : List Char}
    (h : ∀ c, l.head? = some c → wsChar c = false) : trimL l = l := by
  cases l with
  | nil => rfl
  | cons c cs =>
    have hcf : wsChar c = false := h c rfl
    show List.dropWhile wsChar (c :: cs) = c :: cs
    rw [List.dropWhile_cons, hcf]
    simp

theorem jsTrim_idem (l : List Char) : jsTrim (jsTrim l) = jsTrim l := by
  have h1 : trimL (jsTrim l) = jsTrim l := by
    apply trimL_eq_self
    intro c hc
    rw [show jsTrim l = (trimL ((trimL l).reverse)).reverse from rfl,
      List.head?_reverse] at hc
    have hvne : trimL ((trimL l).reverse) ≠ [] := by
      intro e
      rw [e] at hc
      exact Option.noConfusion hc
    have h3 : (trimL ((trimL l).reverse)).getLast? = ((trimL l).reverse).getLast? :=
      getLast?_dropWhile wsChar ((trimL l).reverse) hvne
    rw [h3, List.getLast?_reverse] at hc
    exact head?_dropWhile_false wsChar l hc
  have h2 : ∀ z : List Char, trimL (trimL z) = trimL z :=
    fun z => dropWhile_dropWhile_same wsChar z
  calc jsTrim (jsTrim l)
      = (trimL (trimL (jsTrim l)).reverse).reverse := rfl
    _ = (trimL (jsTrim l).reverse).reverse := by rw [h1]
    _ = (trimL (trimL ((trimL l).reverse))).reverse := by
          rw [show (jsTrim l).reverse = trimL ((trimL l).reverse) from by
            simp [jsTrim]]
    _ = (trimL ((trimL l).reverse)).reverse := by rw [h2]
    _ = jsTrim l := rfl

/-- C3 — counterexample: the sanitizer is not idempotent.  With two closing
markers the first pass keeps the text after the first marker, which still
contains a marker, so a second pass strips again. -/
theorem c3_counterexample :
    stripThinking "a</think>b</think>c" = "b</think>c" ∧
    stripThinking (stripThinking "a</think>b</think>c") ≠
      stripThinking "a</think>b</think>c" := by
  constructor
  · decide
  · decide

/-- C3 (amended): the sanitizer is idempotent on every string whose
sanitized output contains no further closing marker; equivalently, when
no `</think>` survives the first pass, a second pass returns the output
unchanged (the output can retain a `</think>` when the input holds more
than one closing marker, and idempotence fails there). -/
theorem c3_amended (s : String)
    (h : hasSub closeTag (stripThinking s).data = false) :
    stripThinking (stripThinking s) = stripThinking s := by
  have hX : hasSub closeTag (jsTrim (removeSpans (afterClose s.data))) = false := h
  show String.mk (jsTrim (removeSpans (afterClose
      (jsTrim (removeSpans (afterClose s.data)))))) =
    String.mk (jsTrim (removeSpans (afterClose s.data)))
  rw [afterClose_no_close hX, removeSpans_no_close hX, jsTrim_idem]

/-- Witness for the amended C3 at a concrete input. -/
theorem c3_amended_witness :
    stripThinking (stripThinking "x<think>y</think>z") =
      stripThinking "x<think>y</think>z" :=
  c3_amended "x<think>y</think>z" (by decide)

/-- C4 — sanitizer algorithm: the sanitizer is exactly trim ∘ span-removal ∘
drop-through-first-closing-marker; a non-string input yields `""`;
`"foo<think>bar</think>baz"` maps to `"baz"`, `"<think>x</think>"` maps to
`""`; and a string without the closing marker maps to its trimmed self. -/
theorem c4_sanitizer_algorithm :
    (∀ s : String, stripThinking s = String.mk (jsTrim (removeSpans (afterClose s.data)))) ∧
    (∀ v : JSVal, (∀ t, v ≠ .str t) → stripThinkingVal v = "") ∧
    stripThinkingVal (.str "foo<think>bar</think>baz") = "baz" ∧
    stripThinkingVal (.str "<think>x</think>") = "" ∧
    (∀ s : String, hasSub closeTag s.data = false →
      stripThinking s = String.mk (jsTrim s.data)) := by
  refine ⟨fun s => rfl, ?_, by decide, by decide, ?_⟩
  · intro v h
    cases v with
    | str t => exact absurd rfl (h t)
    | undefined => rfl
    | null => rfl
    | bool b => rfl
    | num n => rfl
    | arr l => rfl
    | obj fs => rfl
  · intro s h
    unfold stripThinking
    rw [afterClose_no_close h, removeSpans_no_close h]

/-- Witness for C4 at concrete inputs. -/
theorem c4_witness :
    stripThinkingVal .null = "" ∧
    stripThinking " hi " = String.mk (jsTrim " hi ".data) :=
  ⟨c4_sanitizer_algorithm.2.1 .null (fun t h => JSVal.noConfusion h),
   c4_sanitizer_algorithm.2.2.2.2 " hi " (by decide)⟩

/- ------------------------------------------------------------------ -/
/- Normalizer lemmas                                                   -/
/- ------------------------------------------------------------------ -/

theorem gf_toJS_index (r : RawResult) :
    getField (toJS r) "index" = optJS .num r.index := rfl

theorem gf_toJS_audios (r : RawResult) :
    getField (toJS r) "audios" = optJS (fun l => .arr (l.map toJSAudio)) r.audios := rfl

theorem gf_toJS_messages (r : RawResult) :
    getField (toJS r) "messages" = optJS (fun l => .arr (l.map toJSMessage)) r.messages := rfl

theorem gf_toJS_prediction (r : RawResult) :
    getField (toJS r) "prediction" = optJS .str r.prediction := rfl

theorem gf_toJS_response (r : RawResult) :
    getField (toJS r) "response" = optJS .str r.response := rfl

theorem gf_toJS_label (r : RawResult) :
    getField (toJS r) "label" = optJS .str r.label := rfl

theorem gf_toJS_target (r : RawResult) :
    getField (toJS r) "target" = optJS .str r.target := rfl

theorem gf_toJS_correct (r : RawResult) :
    getField (toJS r) "correct" = optJS .bool r.correct := rfl

theorem gf_toJS_length (r : RawResult) :
    getField (toJS r) "length" = optJS .num r.length := rfl

theorem audios_eq (a : Option (List RawAudio)) :
    audiosMapAndFilter (jsOr (optJS (fun l => JSVal.arr (l.map toJSAudio)) a) (.arr [])) =
      some (((a.getD []).map (fun x => optJS .str x.audio_filepath)).filter truthy) := by
  cases a with
  | none => rfl
  | some l =>
    show audiosMapAndFilter (.arr (l.map toJSAudio)) = _
    simp only [audiosMapAndFilter, List.map_map]
    rfl

theorem prompt_eq (mo : Option (List RawMessage)) :
    nullishOr (getField (getIdx (optJS (fun l => JSVal.arr (l.map toJSMessage)) mo) 0)
        "content") (.str "") =
      .str (match mo with | some (m :: _) => m.content.getD "" | _ => "") := by
  cases mo with
  | none => rfl
  | some ms =>
    cases ms with
    | nil => rfl
    | cons m rest =>
      obtain ⟨c⟩ := m
      cases c with
      | none => rfl
      | some s => rfl

theorem nullishOr_optJS_num (o : Option Int) (d : Int) :
    nullishOr (optJS .num o) (.num d) = .num (o.getD d) := by
  cases o with
  | none => rfl
  | some n => rfl

theorem nullishOr_optJS_str2 (o1 o2 : Option String) :
    nullishOr (optJS .str o1) (nullishOr (optJS .str o2) (.str "")) =
      .str (o1.getD (o2.getD "")) := by
  cases o1 with
  | none => cases o2 with
    | none => rfl
    | some s => rfl
  | some s => rfl

theorem truthy_optJS_bool (o : Option Bool) : truthy (optJS .bool o) = o.getD false := by
  cases o with
  | none => rfl
  | some b => rfl

theorem normOne_toJS (r : RawResult) (i : Nat) :
    normalizeOne (toJS r) i = some (sampleToJS r i) := by
  simp only [normalizeOne, gf_toJS_audios, audios_eq, gf_toJS_index, gf_toJS_messages,
    gf_toJS_prediction, gf_toJS_response, gf_toJS_label, gf_toJS_target,
    gf_toJS_correct, gf_toJS_length, prompt_eq, nullishOr_optJS_num,
    nullishOr_optJS_str2, truthy_optJS_bool]
  rfl

theorem normList_toJS (rs : List RawResult) :
    ∀ k, normList (rs.map toJS) k = some (sampleList rs k) := by
  induction rs with
  | nil => intro k; rfl
  | cons r rest ih =>
    intro k
    simp only [List.map_cons, normList, normOne_toJS, ih (k + 1)]
    rfl

theorem sampleList_length (rs : List RawResult) :
    ∀ k, (sampleList rs k).length = rs.length := by
  induction rs with
  | nil => intro k; rfl
  | cons r rest ih =>
    intro k
    simp [sampleList, ih]

theorem sampleList_get (rs : List RawResult) :
    ∀ k i, (sampleList rs k)[i]? = (rs[i]?).map (fun r => sampleToJS r (k + i)) := by
  induction rs with
  | nil => intro k i; simp [sampleList]
  | cons r rest ih =>
    intro k i
    cases i with
    | zero => simp [sampleList]
    | succ n =>
      have he : k + 1 + n = k + (n + 1) := by omega
      simp only [sampleList, List.getElem?_cons_succ]
      rw [ih (k + 1) n, he]

/-- C1 — the CSV exporter's quote handling.  The code's
`replaceAll('"', '"')` replaces a double quote with itself, so an embedded
double quote reaches the quoted field unescaped (here the prediction
`a"b` is emitted as `"a"b"`, malformed CSV), where the claim requires the
doubled form `"a""b"`. -/
theorem c1_export_unescaped_quote :
    exportWrongCSV [⟨0, [], "", "a\"b", "", false⟩] =
      "index,audio,prompt,prediction,label\n\"0\",\"\",\"\",\"a\"b\",\"\"" ∧
    exportWrongCSV [⟨0, [], "", "a\"b", "", false⟩] ≠
      "index,audio,prompt,prediction,label\n\"0\",\"\",\"\",\"a\"\"b\",\"\"" := by
  constructor
  · decide
  · decide

/-- C2 — counterexample: a record whose `audios` field is a truthy
non-sequence (the string `"x"`) makes `(r?.audios || []).map` throw a
`TypeError`, modelled as `none`, so `normalizeOne` does not return a
Sample for every raw record value. -/
theorem c2_counterexample :
    normalizeOne (.obj [("audios", .str "x")]) 0 = none := rfl

/-- C2 (amended): per-record normalization returns a Sample whenever the
`audios` field is falsy (absent, `null`, `0`, `""`, `false`) or an actual
sequence; in the falsy case `audioPaths` is the empty list.  Every other
missing or wrong-typed sub-field degrades to its default.  A truthy
non-sequence `audios` value raises a `TypeError` instead. -/
theorem c2_amended (v : JSVal) (i : Nat)
    (h : truthy (getField v "audios") = false ∨ ∃ l, getField v "audios" = .arr l) :
    ∃ s, normalizeOne v i = some s ∧
      (truthy (getField v "audios") = false → s.audioPaths = []) := by
  rcases h with h | ⟨l, hl⟩
  · have hjs : jsOr (getField v "audios") (.arr []) = .arr [] := by
      unfold jsOr
      rw [h]
      simp
    refine ⟨{ index := nullishOr (getField v "index") (.num i),
              audioPaths := [],
              prompt := nullishOr (getField (getIdx (getField v "messages") 0) "content")
                (.str ""),
              prediction := nullishOr (getField v "prediction")
                (nullishOr (getField v "response") (.str "")),
              label := nullishOr (getField v "label")
                (nullishOr (getField v "target") (.str "")),
              correct := truthy (getField v "correct"),
              length := nullishOr (getField v "length") .null }, ?_, fun _ => rfl⟩
    unfold normalizeOne
    rw [hjs]
    rfl
  · have hjs : jsOr (getField v "audios") (.arr []) = .arr l := by
      unfold jsOr
      rw [hl]
      rfl
    refine ⟨{ index := nullishOr (getField v "index") (.num i),
              audioPaths := (l.map (fun a => getField a "audio_filepath")).filter truthy,
              prompt := nullishOr (getField (getIdx (getField v "messages") 0) "content")
                (.str ""),
              prediction := nullishOr (getField v "prediction")
                (nullishOr (getField v "response") (.str "")),
              label := nullishOr (getField v "label")
                (nullishOr (getField v "target") (.str "")),
              correct := truthy (getField v "correct"),
              length := nullishOr (getField v "length") .null }, ?_, ?_⟩
    · unfold normalizeOne
      rw [hjs]
      rfl
    · intro hf
      rw [hl] at hf
      simp [truthy] at hf

/-- Witness for the amended C2 at a concrete input (a falsy, non-array
`audios`). -/
theorem c2_amended_witness :
    ∃ s, normalizeOne (.obj [("audios", .num 0)]) 0 = some s ∧
      (truthy (getField (.obj [("audios", .num 0)]) "audios") = false →
        s.audioPaths = []) :=
  c2_amended (.obj [("audios", .num 0)]) 0 (Or.inl rfl)

/-- C5 — normalizer length, order and index over well-formed RawResult
sequences: exactly one Sample per record, in order (position `i` of the
output is the normalization of record `i`), with `index` the record's
explicit index when present and the zero-based position otherwise. -/
theorem c5_normalizer_length_order_index (rs : List RawResult) :
    ∃ ss, normalizeResults (.arr (rs.map toJS)) = some (ss, .obj []) ∧
      ss.length = rs.length ∧
      (∀ i : Nat, ss[i]? = (rs[i]?).bind (fun r => normalizeOne (toJS r) i)) ∧
      (∀ (i : Nat) (r : RawResult), rs[i]? = some r →
        ∃ s, ss[i]? = some s ∧ s.index = .num (r.index.getD (Int.ofNat i))) := by
  refine ⟨sampleList rs 0, ?_, sampleList_length rs 0, ?_, ?_⟩
  · simp only [normalizeResults, normList_toJS]
    rfl
  · intro i
    rw [sampleList_get]
    cases h : rs[i]? with
    | none => rfl
    | some r => simp [normOne_toJS]
  · intro i r h
    refine ⟨sampleToJS r i, ?_, rfl⟩
    rw [sampleList_get, h]
    simp

/-- Witness for C5 at a concrete two-record input. -/
theorem c5_witness :
    ∃ ss, normalizeResults (.arr (([{ index := some 5 }, {}] : List RawResult).map toJS)) =
        some (ss, .obj []) ∧ ss.length = 2 ∧
      ∃ s, ss[1]? = some s ∧ s.index = .num 1 := by
  obtain ⟨ss, h1, h2, h3, h4⟩ :=
    c5_normalizer_length_order_index [{ index := some 5 }, {}]
  obtain ⟨s, hs, hi⟩ := h4 1 {} rfl
  exact ⟨ss, h1, by rw [h2]; rfl, s, hs, hi⟩

/-- C6 — input-shape dispatch of `normalizeResults`: an object uses its
`results` field when that is a sequence (empty samples otherwise) and
populates metrics from its top-level fields; a top-level sequence yields
one sample per element with empty metrics; every other value yields empty
samples and empty metrics without an error. -/
theorem c6_dispatch :
    (∀ fs : List (String × JSVal), (∀ l, lookupField fs "results" ≠ .arr l) →
        normalizeResults (.obj fs) = some ([], metricOf (.obj fs))) ∧
    (∀ (fs : List (String × JSVal)) (rs : List RawResult),
        lookupField fs "results" = .arr (rs.map toJS) →
        ∃ ss, normalizeResults (.obj fs) = some (ss, metricOf (.obj fs)) ∧
          ss.length = rs.length) ∧
    (∀ rs : List RawResult, ∃ ss,
        normalizeResults (.arr (rs.map toJS)) = some (ss, .obj []) ∧
          ss.length = rs.length) ∧
    (∀ v : JSVal, scalarLike v = true → normalizeResults v = some ([], .obj [])) := by
  refine ⟨?_, ?_, ?_, ?_⟩
  · intro fs h
    simp only [normalizeResults]
    cases hlf : lookupField fs "results" with
    | arr l => exact absurd hlf (h l)
    | undefined => rfl
    | null => rfl
    | bool b => rfl
    | num n => rfl
    | str s => rfl
    | obj fs2 => rfl
  · intro fs rs h
    refine ⟨sampleList rs 0, ?_, sampleList_length rs 0⟩
    simp only [normalizeResults, h, normList_toJS]
    rfl
  · intro rs
    exact ⟨sampleList rs 0, by simp only [normalizeResults, normList_toJS]; rfl,
      sampleList_length rs 0⟩
  · intro v hv
    cases v with
    | obj fs => simp [scalarLike] at hv
    | arr l => simp [scalarLike] at hv
    | undefined => rfl
    | null => rfl
    | bool b => rfl
    | num n => rfl
    | str s => rfl

/-- Witness for C6 at concrete degenerate and object inputs. -/
theorem c6_witness :
    normalizeResults .null = some ([], .obj []) ∧
    normalizeResults (.str "oops") = some ([], .obj []) ∧
    normalizeResults (.obj [("metric", .str "acc")]) =
      some ([], metricOf (.obj [("metric", .str "acc")])) :=
  ⟨c6_dispatch.2.2.2 .null rfl,
   c6_dispatch.2.2.2 (.str "oops") rfl,
   c6_dispatch.1 [("metric", .str "acc")] (fun _ h => JSVal.noConfusion h)⟩

/- ------------------------------------------------------------------ -/
/- Filter, pagination                                                  -/
/- ------------------------------------------------------------------ -/

theorem filteredFn_eq (samples : List CSample) (ow : Bool) (q : String) :
    filteredFn samples ow q =
      if (jsTrim q.data).isEmpty then
        (if ow then samples.filter (fun s => !s.correct) else samples)
      else
        (if ow then samples.filter (fun s => !s.correct) else samples).filter
          (fun s =>
            hasSub (lowerL (jsTrim q.data)) (lowerL s.prompt.data)
            || hasSub (lowerL (jsTrim q.data)) (lowerL (stripThinking s.prediction).data)
            || hasSub (lowerL (jsTrim q.data)) (lowerL (stripThinking s.label).data)) := rfl

/-- C7 — filter/search: the filtered list is a sublist of the canonical
list (original relative order preserved); with `onlyWrong` on, only
samples with `correct = false` survive; with a non-empty trimmed query, a
sample is kept exactly when it passes the only-wrong stage and the
lowercased query occurs in its raw prompt, its sanitized prediction, or
its sanitized label, all lowercased. -/
theorem c7_filter (samples : List CSample) (ow : Bool) (q : String) :
    (filteredFn samples ow q).Sublist samples ∧
    (ow = true → ∀ s ∈ filteredFn samples ow q, s.correct = false) ∧
    ((jsTrim q.data).isEmpty = false →
      ∀ s ∈ samples, (s ∈ filteredFn samples ow q ↔
        ((ow = true → s.correct = false) ∧
          (hasSub (lowerL (jsTrim q.data)) (lowerL s.prompt.data) = true ∨
           hasSub (lowerL (jsTrim q.data)) (lowerL (stripThinking s.prediction).data) = true ∨
           hasSub (lowerL (jsTrim q.data)) (lowerL (stripThinking s.label).data) = true)))) := by
  have hl1 : (if ow then samples.filter (fun s => !s.correct) else samples).Sublist
      samples := by
    cases ow with
    | false => exact List.Sublist.refl _
    | true => exact List.filter_sublist _
  refine ⟨?_, ?_, ?_⟩
  · rw [filteredFn_eq]
    split
    · exact hl1
    · exact (List.filter_sublist _).trans hl1
  · intro how s hs
    rw [filteredFn_eq, how] at hs
    simp only [if_true] at hs
    split at hs
    · rw [List.mem_filter] at hs
      simpa using hs.2
    · rw [List.mem_filter] at hs
      have h2 := hs.1
      rw [List.mem_filter] at h2
      simpa using h2.2
  · intro hq s hsamp
    rw [filteredFn_eq, hq]
    simp only [Bool.false_eq_true, if_false]
    rw [List.mem_filter]
    constructor
    · rintro ⟨h1, h2⟩
      refine ⟨?_, by simpa [or_assoc] using h2⟩
      intro how
      rw [how] at h1
      simp only [if_true] at h1
      rw [List.mem_filter] at h1
      simpa using h1.2
    · rintro ⟨h1, h2⟩
      refine ⟨?_, by simpa [or_assoc] using h2⟩
      cases how : ow with
      | true =>
        simp only [if_true]
        rw [List.mem_filter]
        exact ⟨hsamp, by simp [h1 how]⟩
      | false => simpa using hsamp

/-- Witness for C7 at concrete inputs. -/
theorem c7_witness :
    (filteredFn [⟨0, [], "", "", "", true⟩, ⟨1, [], "", "", "", false⟩] true "").Sublist
      [⟨0, [], "", "", "", true⟩, ⟨1, [], "", "", "", false⟩] ∧
    (∀ s ∈ filteredFn [⟨0, [], "", "", "", true⟩, ⟨1, [], "", "", "", false⟩] true "",
      s.correct = false) ∧
    (⟨1, [], "xy", "", "", false⟩ : CSample) ∈
      filteredFn [⟨1, [], "xy", "", "", false⟩] false "X" := by
  have h := c7_filter [⟨0, [], "", "", "", true⟩, ⟨1, [], "", "", "", false⟩] true ""
  have h3 := (c7_filter [⟨1, [], "xy", "", "", false⟩] false "X").2.2 (by decide)
    ⟨1, [], "xy", "", "", false⟩ (by simp)
  exact ⟨h.1, h.2.1 rfl, h3.mpr ⟨fun hf => Bool.noConfusion hf, Or.inl (by decide)⟩⟩

theorem ceil_nat_div (a k : Nat) (hk : 1 ≤ k) :
    Int.toNat ⌈(a : ℚ) / (k : ℚ)⌉ = (a + k - 1) / k := by
  have hk0 : (0 : ℚ) < (k : ℚ) := by exact_mod_cast hk
  have hmod := Nat.div_add_mod (a + k - 1) k
  have hlt : (a + k - 1) % k < k := Nat.mod_lt _ (by omega)
  have hbounds : a ≤ k * ((a + k - 1) / k) ∧ k * ((a + k - 1) / k) < a + k := by
    generalize hD : k * ((a + k - 1) / k) = D at hmod ⊢
    generalize hR : (a + k - 1) % k = R at hmod hlt
    omega
  have hceil : ⌈(a : ℚ) / (k : ℚ)⌉ = (((a + k - 1) / k : Nat) : Int) := by
    set m := (a + k - 1) / k
    have h2 : (k : ℚ) * (m : ℚ) < (a : ℚ) + (k : ℚ) := by exact_mod_cast hbounds.2
    have h1 : (a : ℚ) ≤ (k : ℚ) * (m : ℚ) := by exact_mod_cast hbounds.1
    rw [Int.ceil_eq_iff]
    constructor
    · rw [lt_div_iff₀ hk0, Int.cast_natCast]
      nlinarith [h2]
    · rw [div_le_iff₀ hk0, Int.cast_natCast]
      nlinarith [h1]
  rw [hceil, Int.toNat_natCast]

theorem totalPages_formula (len k : Nat) (hk : 1 ≤ k) :
    totalPagesFn len k = max 1 ((len + k - 1) / k) := by
  unfold totalPagesFn
  rw [ceil_nat_div len k hk]

/-- C8 — pagination: the page count is `max 1 (ceil (len / k))` (so `1`
for an empty list), and page `p` shows exactly the elements with indices
in `[(p-1)*k, min len ((p-1)*k + k))`; 25 rows at page size 10 give 3
pages and page 3 shows indices 20 to 24. -/
theorem c8_pagination :
    (∀ len k : Nat, 1 ≤ k → totalPagesFn len k = max 1 ((len + k - 1) / k)) ∧
    (∀ k : Nat, 1 ≤ k → totalPagesFn 0 k = 1) ∧
    (∀ (l : List CSample) (p k : Nat),
      (pageRowsFn l p k).length = min l.length ((p - 1) * k + k) - (p - 1) * k ∧
      (∀ j : Nat, (pageRowsFn l p k)[j]? =
        if (p - 1) * k + j < min l.length ((p - 1) * k + k) then l[(p - 1) * k + j]?
        else none)) ∧
    totalPagesFn 25 10 = 3 ∧
    pageRowsFn ((List.range 25).map mkC) 3 10 =
      [mkC 20, mkC 21, mkC 22, mkC 23, mkC 24] := by
  refine ⟨totalPages_formula, ?_, ?_, ?_, ?_⟩
  · intro k hk
    rw [totalPages_formula 0 k hk]
    have h0 : (0 + k - 1) / k = 0 := Nat.div_eq_of_lt (by omega)
    rw [h0]
    omega
  · intro l p k
    constructor
    · simp only [pageRowsFn, jsSliceL, pageStartFn, pageEndFn, List.length_drop,
        List.length_take]
      omega
    · intro j
      simp only [pageRowsFn, jsSliceL, pageStartFn, pageEndFn, List.getElem?_drop,
        List.getElem?_take]
  · rw [totalPages_formula 25 10 (by omega)]
    omega
  · decide

/-- Witness for C8 at concrete page sizes. -/
theorem c8_witness : totalPagesFn 7 10 = 1 ∧ totalPagesFn 0 3 = 1 :=
  ⟨by rw [c8_pagination.1 7 10 (by omega)]; omega, c8_pagination.2.1 3 (by omega)⟩

/- ------------------------------------------------------------------ -/
/- Path resolver                                                       -/
/- ------------------------------------------------------------------ -/

theorem getSubst_no_dollar (m bef aft : List Char) :
    ∀ l : List Char, (∀ c ∈ l, c ≠ dollarC) → getSubst m bef aft l = l := by
  intro l
  induction l with
  | nil => intro _; rfl
  | cons c rest ih =>
    intro h
    cases rest with
    | nil => rfl
    | cons d rest2 =>
      have hc : c ≠ dollarC := h c (by simp)
      simp only [getSubst]
      rw [if_neg hc, ih (fun x hx => h x (by simp [hx]))]

/-- C9 — counterexample: the prefix-replace mode is not always a literal
replacement, because JS `String.replace` processes dollar substitution
patterns in the replacement string: with from `"/a"` and to `"$&$&"`, the
path `"/a"` resolves to `"/a/a"`, not to the literal `"$&$&"`. -/
theorem c9_counterexample :
    audioUrl .replace (UrlCfg.mk "" "/a" "$&$&") "/a" = "/a/a" ∧
    replaceLiteralSpec "/a" "/a" "$&$&" = "$&$&" ∧
    ("/a/a" : String) ≠ "$&$&" :=
  ⟨by decide, by decide, by decide⟩

/-- C9 (amended): for every non-empty path, prefix-replace mode replaces
the first occurrence of the from string; the to string is inserted
verbatim whenever it contains no dollar character (JS dollar substitution
patterns are expanded otherwise).  The spec's example resolves as stated,
and an empty path yields an empty URL in either mode. -/
theorem c9_amended :
    (∀ (b pf pt p : String), p ≠ "" → (∀ c ∈ pt.data, c ≠ dollarC) →
      audioUrl .replace (UrlCfg.mk b pf pt) p = replaceLiteralSpec p pf pt) ∧
    audioUrl .replace
        (UrlCfg.mk "" "/work/voidful2nlp/data/" "https://cdn.example.com/audio/")
        "/work/voidful2nlp/data/sample001.wav" =
      "https://cdn.example.com/audio/sample001.wav" ∧
    (∀ (mode : UrlMode) (cfg : UrlCfg), audioUrl mode cfg "" = "") := by
  refine ⟨?_, by decide, ?_⟩
  · intro b pf pt p hp hpt
    unfold audioUrl
    rw [if_neg hp]
    show jsReplaceOnce p pf pt = replaceLiteralSpec p pf pt
    unfold jsReplaceOnce replaceLiteralSpec
    cases hfs : findSplit pf.data p.data with
    | none => rfl
    | some ba =>
      obtain ⟨bb, aa⟩ := ba
      show String.mk (bb ++ getSubst pf.data bb aa pt.data ++ aa) =
        String.mk (bb ++ pt.data ++ aa)
      rw [getSubst_no_dollar pf.data bb aa pt.data hpt]
  · intro mode cfg
    rfl

/-- Witness for the amended C9 at a concrete dollar-free replacement. -/
theorem c9_amended_witness :
    audioUrl .replace (UrlCfg.mk "" "x" "y") "x" = replaceLiteralSpec "x" "x" "y" :=
  c9_amended.1 "" "x" "y" "x" (by decide) (by decide)

theorem splitSlash_ne_nil : ∀ l : List Char, splitSlash l ≠ [] := by
  intro l
  cases l with
  | nil => simp [splitSlash]
  | cons c cs =>
    simp only [splitSlash]
    split
    · simp
    · cases h : splitSlash cs with
      | nil => simp
      | cons hh tt => simp

theorem takeWhile_append_last (p : α → Bool) (xs : List α) (a : α) (ha : p a = false) :
    (xs ++ [a]).takeWhile p = xs.takeWhile p := by
  induction xs with
  | nil => simp [List.takeWhile_cons, ha]
  | cons x xs ih =>
    simp only [List.cons_append, List.takeWhile_cons]
    split
    · rw [ih]
    · rfl

theorem takeWhile_append_stop (p : α → Bool) (xs ys : List α)
    (h : ∃ x ∈ xs, p x = false) :
    (xs ++ ys).takeWhile p = xs.takeWhile p := by
  induction xs with
  | nil =>
    obtain ⟨x, hx, _⟩ := h
    simp at hx
  | cons c cs ih =>
    simp only [List.cons_append, List.takeWhile_cons]
    split
    · rename_i hc
      obtain ⟨x, hx, hpx⟩ := h
      have h2 : ∃ x ∈ cs, p x = false := by
        rcases List.mem_cons.mp hx with rfl | hmem
        · rw [hc] at hpx
          exact absurd hpx (by simp)
        · exact ⟨x, hmem, hpx⟩
      rw [ih h2]
    · rfl

theorem takeWhile_all (p : α → Bool) : ∀ l : List α,
    (∀ x ∈ l, p x = true) → l.takeWhile p = l := by
  intro l
  induction l with
  | nil => intro _; rfl
  | cons c cs ih =>
    intro h
    simp [List.takeWhile_cons, h c (List.mem_cons_self c cs),
      ih (fun x hx => h x (List.mem_cons_of_mem c hx))]

theorem splitSlash_no_slash : ∀ l : List Char, '/' ∉ l → splitSlash l = [l] := by
  intro l
  induction l with
  | nil => intro _; rfl
  | cons c cs ih =>
    intro h
    have hc : ¬ c = '/' := fun e => h (by simp [e])
    simp only [splitSlash]
    rw [if_neg hc, ih (fun hm => h (by simp [hm]))]

theorem splitSlash_len_two : ∀ l : List Char, '/' ∈ l → 2 ≤ (splitSlash l).length := by
  intro l
  induction l with
  | nil => intro h; simp at h
  | cons c cs ih =>
    intro h
    simp only [splitSlash]
    by_cases hc : c = '/'
    · rw [if_pos hc]
      have h1 : 0 < (splitSlash cs).length :=
        List.length_pos.mpr (splitSlash_ne_nil cs)
      simp only [List.length_cons]
      omega
    · rw [if_neg hc]
      have hmem : '/' ∈ cs := by
        rcases List.mem_cons.mp h with he | hm
        · exact absurd he.symm hc
        · exact hm
      have h2 := ih hmem
      cases hsp : splitSlash cs with
      | nil => exact absurd hsp (splitSlash_ne_nil cs)
      | cons hh tt =>
        rw [hsp] at h2
        simp only [List.length_cons] at h2 ⊢
        omega

theorem splitSlash_cons (c : Char) (cs : List Char) (hc : ¬ c = '/')
    (hh : List Char) (tt : List (List Char)) (hsp : splitSlash cs = hh :: tt) :
    splitSlash (c :: cs) = (c :: hh) :: tt := by
  simp only [splitSlash]
  rw [if_neg hc, hsp]

theorem lastSeg_eq : ∀ l : List Char,
    ((splitSlash l).getLast?).getD [] = (l.reverse.takeWhile (fun c => c != '/')).reverse := by
  intro l
  induction l with
  | nil => rfl
  | cons c cs ih =>
    by_cases hc : c = '/'
    · subst hc
      simp only [splitSlash, if_pos]
      have h1 : (([] : List Char) :: splitSlash cs).getLast? = (splitSlash cs).getLast? := by
        cases hsp : splitSlash cs with
        | nil => exact absurd hsp (splitSlash_ne_nil cs)
        | cons hh tt => rw [List.getLast?_cons_cons]
      rw [h1, ih, List.reverse_cons, takeWhile_append_last _ _ _ (by decide)]
    · cases hsp : splitSlash cs with
      | nil => exact absurd hsp (splitSlash_ne_nil cs)
      | cons hh tt =>
        rw [splitSlash_cons c cs hc hh tt hsp]
        cases tt with
        | nil =>
          have hnos : '/' ∉ cs := by
            intro hm
            have h2 := splitSlash_len_two cs hm
            rw [hsp] at h2
            simp at h2
          have hcs : hh = cs := by
            have h3 := splitSlash_no_slash cs hnos
            rw [hsp] at h3
            simpa using h3
          rw [hcs]
          have hall : ∀ x ∈ cs.reverse ++ [c], (x != '/') = true := by
            intro x hx
            rcases List.mem_append.mp hx with hx1 | hx2
            · have hxc : x ∈ cs := List.mem_reverse.mp hx1
              simp only [bne_iff_ne, ne_eq]
              intro e
              exact hnos (e ▸ hxc)
            · simp only [List.mem_singleton] at hx2
              subst hx2
              simp only [bne_iff_ne, ne_eq]
              exact hc
          rw [List.reverse_cons, takeWhile_all _ _ hall, List.reverse_append]
          simp
        | cons t2 ts =>
          rw [List.getLast?_cons_cons]
          rw [hsp, List.getLast?_cons_cons] at ih
          rw [ih]
          have hslash : '/' ∈ cs := by
            by_contra hno
            have h3 := splitSlash_no_slash cs hno
            rw [hsp] at h3
            injection h3 with _ h4
            exact List.noConfusion h4
          rw [List.reverse_cons,
            takeWhile_append_stop _ _ _ ⟨'/', List.mem_reverse.mpr hslash, by decide⟩]

/-- C10 — basename-mode collisions: the resolved URL depends only on the
configured base URL and the substring of the path after its last `/`; two
non-empty paths with equal final segments resolve to the same URL even
under different remaining configuration, so directory information is
discarded. -/
theorem c10_basename_collision :
    (∀ (cfg : UrlCfg) (p : String), p ≠ "" →
      audioUrl .basename cfg p = joinUrl cfg.baseUrl (String.mk (afterLastSlash p))) ∧
    (∀ (cfg cfg2 : UrlCfg) (p1 p2 : String), cfg.baseUrl = cfg2.baseUrl →
      p1 ≠ "" → p2 ≠ "" → afterLastSlash p1 = afterLastSlash p2 →
      audioUrl .basename cfg p1 = audioUrl .basename cfg2 p2) := by
  have key : ∀ (cfg : UrlCfg) (p : String), p ≠ "" →
      audioUrl .basename cfg p = joinUrl cfg.baseUrl (String.mk (afterLastSlash p)) := by
    intro cfg p hp
    unfold audioUrl
    rw [if_neg hp]
    show joinUrl cfg.baseUrl (String.mk (lastSeg p)) = _
    have h5 : lastSeg p = afterLastSlash p := lastSeg_eq p.data
    rw [h5]
  refine ⟨key, ?_⟩
  intro cfg cfg2 p1 p2 hb h1 h2 hseg
  rw [key cfg p1 h1, key cfg2 p2 h2, hseg, hb]

/-- Witness for C10: two different directories, same filename, same URL. -/
theorem c10_witness :
    audioUrl .basename (UrlCfg.mk "/audio/" "" "") "a/x.wav" =
      audioUrl .basename (UrlCfg.mk "/audio/" "f" "t") "b/c/x.wav" :=
  c10_basename_collision.2 (UrlCfg.mk "/audio/" "" "") (UrlCfg.mk "/audio/" "f" "t")
    "a/x.wav" "b/c/x.wav" rfl (by decide) (by decide) (by decide)

end AudioResults
